import Mathlib

/-!
# Verification of the Ganache Ethereum API engine (`api.ts`)

A shallow embedding of the parts of `src/chains/ethereum/ethereum/src/api.ts`
(and, where that file only delegates, of the blockchain engine described by
the specification) needed to settle the frozen claims.

Buffers and JS strings are modelled as `List Nat` / `List Char`; JS `Map`s and
objects as association lists; promise rejections and thrown errors as
`Except`/`Option` results.
-/

namespace Ganache

/-! ## Transactions and execution exceptions (api.ts `assertExceptionalTransactions`) -/

/-- The `data` payload carried by a transaction's `execException`
(`transaction.execException.data`); its `hash` field is used as the key of the
aggregated error's `data` object. -/
structure ExcData where
  hash : List Char
  payload : Nat
deriving DecidableEq, Repr

/-- A transaction's `execException`: a JS `Error` with a `message`, a `name`
(used by `Error.prototype.toString`), and a `data` payload. -/
structure ExecException where
  name : List Char
  message : List Char
  data : ExcData
deriving DecidableEq, Repr

/-- The slice of a `TypedTransaction` that `api.ts` inspects: its hash and the
execution exception recorded while mining (absent when execution succeeded). -/
structure TypedTransaction where
  hash : List Char
  execException : Option ExecException
deriving DecidableEq, Repr

/-- Imported constant `VM_EXCEPTION` from `@ganache/ethereum-utils`: the base
message for a single VM exception. -/
def VM_EXCEPTION : List Char :=
  ("VM Exception while processing transaction: ").toList

/-- Imported constant `VM_EXCEPTIONS` from `@ganache/ethereum-utils`: the base
message when several transactions raised VM exceptions. -/
def VM_EXCEPTIONS : List Char :=
  (" Multiple VM Exceptions while processing transactions: \n\n").toList

/-- JS string interpolation `\x7b${transaction.execException}\x7d`: calls
`Error.prototype.toString`, producing `name + ": " + message`. -/
def excToString (e : ExecException) : List Char :=
  e.name ++ (": ").toList ++ e.message

/-- JS `Array.prototype.join(sep)` over a list of strings. -/
def joinSep (sep : List Char) : List (List Char) → List Char
  | [] => []
  | [x] => x
  | x :: y :: xs => x ++ sep ++ joinSep sep (y :: xs)

/-- JS object assignment `data[k] = v`: replaces the value when the key is
present, otherwise appends it (JS objects keep insertion order). -/
def putData (m : List (List Char × ExcData)) (k : List Char) (v : ExcData) :
    List (List Char × ExcData) :=
  if k ∈ m.map Prod.fst then
    m.map (fun p => if p.1 = k then (k, v) else p)
  else
    m ++ [(k, v)]

/-- The accumulator of `assertExceptionalTransactions`'s `forEach` loop:
the mutable locals `baseError`, `errors`, and `data`. -/
structure AggState where
  baseError : Option (List Char)
  errors : List (List Char)
  data : List (List Char × ExcData)
deriving DecidableEq, Repr

/-- One iteration of the `forEach` body in `assertExceptionalTransactions`. -/
def aggStep (s : AggState) (t : TypedTransaction) : AggState :=
  match t.execException with
  | none => s
  | some e =>
    match s.baseError with
    | some _ =>
      { baseError := some VM_EXCEPTIONS
        errors := s.errors ++
          [t.hash ++ (": ").toList ++ excToString e ++ ("\n").toList]
        data := putData s.data e.data.hash e.data }
    | none =>
      { baseError := some VM_EXCEPTION
        errors := [e.message]
        data := putData s.data e.data.hash e.data }

/-- The thrown aggregated error: `new Error(baseError + errors.join("\n"))`
with its `data` property attached. -/
structure VMError where
  message : List Char
  data : List (List Char × ExcData)
deriving DecidableEq, Repr

/-- `assertExceptionalTransactions` (api.ts): scans the mined batch, building
`baseError`/`errors`/`data`, and throws (here: returns `some`) an aggregated
error exactly when some transaction carries an `execException`. -/
def assertExceptionalTransactions (transactions : List TypedTransaction) :
    Option VMError :=
  let s := transactions.foldl aggStep ⟨none, [], []⟩
  match s.baseError with
  | some base =>
    some { message := base ++ joinSep (("\n").toList) s.errors, data := s.data }
  | none => none

/-! ## Blocks, world state and the chain -/

/-- An account record as stored in the state trie: the 4-tuple
(nonce, balance, storage-root, code-hash); `storage` holds the slots of the
storage trie rooted at `storageRoot`. -/
structure Account where
  nonce : Nat
  balance : Nat
  storageRoot : Nat
  codeHash : Nat
  storage : List (Nat × Nat)
deriving DecidableEq, Repr

/-- A committed block: header fields the API inspects plus the ordered
transaction list. -/
structure Block where
  number : Nat
  hash : Nat
  stateRoot : Nat
  transactions : List TypedTransaction
deriving DecidableEq, Repr

/-- The engine state owned by `Blockchain`: the committed chain, the state
trie store addressed by root (each root an immutable world-state view), the
transaction pool, and the receipts keyed by transaction hash. -/
structure EngineState where
  blocks : List Block
  statesByRoot : List (Nat × List (Nat × Account))
  pool : List TypedTransaction
  receipts : List (List Char × Nat)
deriving DecidableEq, Repr

/-- Modelled from the spec: `blockchain.blocks.get(numberRef)` (the
`BlockManager` is not under `src/`); resolves a block-number reference to the
committed block, rejecting (`Header not found`) when no block has that
number (§6 `getBlock(number|hash) → header+body | absent` at the manager
level surfaces as a rejection that callers must catch). -/
def blocksGet (es : EngineState) (number : Nat) : Except (List Char) Block :=
  match es.blocks.find? (fun b => b.number = number) with
  | some b => .ok b
  | none => .error (("header not found").toList)

/-- Modelled from the spec: `blockchain.blocks.getByHash(hash)`; resolves a
block hash to the committed block, rejecting when the hash is unknown. -/
def blocksGetByHash (es : EngineState) (hash : Nat) :
    Except (List Char) Block :=
  match es.blocks.find? (fun b => b.hash = hash) with
  | some b => .ok b
  | none => .error (("header not found").toList)

/-- The JSON view of a block that `block.toJSON(true)` produces: header plus
full transaction objects (modelled by the transactions themselves). -/
structure BlockJSON where
  number : Nat
  hash : Nat
  transactions : List TypedTransaction
deriving DecidableEq, Repr

/-- `block.toJSON(transactions)` with full transaction objects. -/
def Block.toJSON (b : Block) : BlockJSON :=
  { number := b.number, hash := b.hash, transactions := b.transactions }

/-- `eth_getBlockByNumber` (api.ts): looks the block up, converting any
rejection to `null` via `.catch(_ => null)`. -/
def eth_getBlockByNumber (es : EngineState) (number : Nat) :
    Option BlockJSON :=
  match blocksGet es number with
  | .ok b => some b.toJSON
  | .error _ => none

/-- `eth_getBlockByHash` (api.ts): looks the block up by hash, converting any
rejection to `null` via `.catch(_ => null)`. -/
def eth_getBlockByHash (es : EngineState) (hash : Nat) : Option BlockJSON :=
  match blocksGetByHash es hash with
  | .ok b => some b.toJSON
  | .error _ => none

/-- Modelled from the spec: `blockchain.transactions.get(hash)` (the
`TransactionManager` is not under `src/`); returns the mined transaction
record for a hash, or `null` when the transaction was never mined: we look
the hash up in the committed blocks. -/
def transactionsGet (es : EngineState) (hash : List Char) :
    Option TypedTransaction :=
  (es.blocks.flatMap (fun b => b.transactions)).find? (fun t => t.hash = hash)

/-- `eth_getTransactionReceipt` (api.ts): fetches the transaction, receipt
and block; when the transaction was mined it returns the receipt's JSON,
otherwise it (optionally logs an instamine notice and) returns `null`. -/
def eth_getTransactionReceipt (es : EngineState) (transactionHash : List Char) :
    Option Nat :=
  match transactionsGet es transactionHash with
  | some _ =>
    match es.receipts.find? (fun r => r.1 = transactionHash) with
    | some r => some r.2
    | none => none
  | none => none

/-- `eth_getTransactionByBlockHashAndIndex` (api.ts): fetches the block by
hash; when the block or the indexed transaction is missing it returns
`null`, never failing. -/
def eth_getTransactionByBlockHashAndIndex (es : EngineState) (hash : Nat)
    (index : Nat) : Except (List Char) (Option TypedTransaction) :=
  match eth_getBlockByHash es hash with
  | some block =>
    match block.transactions.get? index with
    | some tx => .ok (some tx)
    | none => .ok none
  | none => .ok none

/-- `eth_getTransactionByBlockNumberAndIndex` (api.ts): fetches the block by
number and immediately reads `block.transactions` with no null guard, so a
missing block raises a `TypeError` instead of producing `null`. -/
def eth_getTransactionByBlockNumberAndIndex (es : EngineState) (number : Nat)
    (index : Nat) : Except (List Char) (Option TypedTransaction) :=
  match eth_getBlockByNumber es number with
  | some block => .ok (block.transactions.get? index)
  | none =>
    .error (("TypeError: Cannot read properties of null").toList)

/-! ## Mining (`evm_mine`) -/

/-- Modelled from the spec: `blockchain.mine(-1, timestamp, true)` (the
`Blockchain` class is not under `src/`); commits one block containing the
drained pool batch — an empty block when the pool is exhausted (§4.4:
"manual `mine(n)` mines exactly `n` blocks regardless of pool state,
producing empty blocks if the pool is exhausted") — and resolves with the
transactions that were mined. -/
def Blockchain.mineOne (es : EngineState) (timestamp : Option Nat) :
    EngineState × List TypedTransaction :=
  let txs := es.pool
  let newBlock : Block :=
    { number := es.blocks.length
      hash := es.blocks.length
      stateRoot := 0
      transactions := txs }
  ({ es with blocks := es.blocks ++ [newBlock], pool := [] }, txs)

/-- The argument of `evm_mine`: absent, a bare timestamp, or an options
object with optional `timestamp` and `blocks` fields. -/
inductive MineArg where
  | none
  | timestamp (t : Nat)
  | options (timestamp : Option Nat) (blocks : Option Nat)
deriving DecidableEq, Repr

/-- The `for (let i = 0; i < blocks; i++)` loop of `evm_mine`: each iteration
mines one block and, when `vmErrorsOnRPCResponse` is set, asserts the batch's
exceptional transactions (throwing aborts the loop). -/
def mineLoop (vmErrorsOnRPCResponse : Bool) (timestamp : Option Nat) :
    Nat → EngineState → Except VMError EngineState
  | 0, es => .ok es
  | n + 1, es =>
    let (es', transactions) := Blockchain.mineOne es timestamp
    if vmErrorsOnRPCResponse then
      match assertExceptionalTransactions transactions with
      | some e => .error e
      | none => mineLoop vmErrorsOnRPCResponse timestamp n es'
    else
      mineLoop vmErrorsOnRPCResponse timestamp n es'

/-- `evm_mine` (api.ts): when given an options object it defaults `blocks` to
`1` and mines that many blocks in a loop; otherwise it mines a single block
with the bare timestamp. On success it returns the constant string `"0x0"`. -/
def evm_mine (vmErrorsOnRPCResponse : Bool) (es : EngineState)
    (arg : MineArg) : Except VMError (EngineState × List Char) :=
  match arg with
  | .options timestamp blocks =>
    let blocks := blocks.getD 1
    (mineLoop vmErrorsOnRPCResponse timestamp blocks es).map
      (fun es' => (es', ("0x0").toList))
  | .timestamp t =>
    (mineLoop vmErrorsOnRPCResponse (some t) 1 es).map
      (fun es' => (es', ("0x0").toList))
  | .none =>
    (mineLoop vmErrorsOnRPCResponse none 1 es).map
      (fun es' => (es', ("0x0").toList))

/-! ## Snapshots (`evm_snapshot` / `evm_revert`) -/

/-- Modelled from the spec: the tuple a snapshot records (§4.5): chain head,
trie root, pool contents and logical-clock offset. -/
structure SnapshotTuple where
  head : Nat
  root : Nat
  pool : List TypedTransaction
  clock : Int
deriving DecidableEq, Repr

/-- Modelled from the spec: the snapshot manager's state (§4.5): a
monotonically increasing counter and the recorded snapshots keyed by id. -/
structure SnapshotState where
  counter : Nat
  snapshots : List (Nat × SnapshotTuple)
  current : SnapshotTuple
deriving DecidableEq, Repr

/-- Modelled from the spec: `blockchain.snapshot()` (§4.5): the id is the
next value of the increasing counter; the current
(head, root, pool, clock) tuple is recorded under it. -/
def Blockchain.snapshot (s : SnapshotState) : Nat × SnapshotState :=
  let id := s.counter + 1
  (id, { s with counter := id, snapshots := s.snapshots ++ [(id, s.current)] })

/-- Modelled from the spec: `blockchain.revert(id)` (§4.5): returns `false`
when the id is unknown; on success restores the recorded tuple and discards
every snapshot with id ≥ the reverted one. -/
def Blockchain.revert (s : SnapshotState) (id : Nat) : Bool × SnapshotState :=
  match s.snapshots.find? (fun p => p.1 = id) with
  | some (_, tuple) =>
    (true,
      { s with
        snapshots := s.snapshots.filter (fun p => p.1 < id)
        current := tuple })
  | none => (false, s)

/-- `evm_snapshot` (api.ts): delegates to `blockchain.snapshot()` and wraps
the id as a quantity. -/
def evm_snapshot (s : SnapshotState) : Nat × SnapshotState :=
  Blockchain.snapshot s

/-- `evm_revert` (api.ts): delegates to `blockchain.revert(snapshotId)`. -/
def evm_revert (s : SnapshotState) (snapshotId : Nat) : Bool × SnapshotState :=
  Blockchain.revert s snapshotId

/-! ## Filters (`eth_newFilter` / `eth_getFilterChanges`) -/

/-- A registered filter as stored in the api's `#filters` map: the
accumulation buffer `updates` the `blockLogs` subscription pushes matches
into (the `unsubscribe` handle and filter args play no role here). -/
structure Filter where
  updates : List Nat
deriving DecidableEq, Repr

/-- The api's `#filters` map, filter id → filter. -/
structure FiltersState where
  filters : List (Nat × Filter)
deriving DecidableEq, Repr

/-- Replace the entry at a key of an association list (JS `Map.prototype.set`
on a present key). -/
def setEntry (m : List (Nat × Filter)) (k : Nat) (v : Filter) :
    List (Nat × Filter) :=
  m.map (fun p => if p.1 = k then (k, v) else p)

/-- The `blockLogs` listener installed by `eth_newFilter`:
`value.updates.push(...blockLogs.filter(addresses, topics))` appends the
matching logs of a newly mined block to the filter's buffer. -/
def pushUpdates (st : FiltersState) (id : Nat) (logs : List Nat) :
    FiltersState :=
  match st.filters.find? (fun p => p.1 = id) with
  | some (_, f) =>
    { filters := setEntry st.filters id { updates := f.updates ++ logs } }
  | none => st

/-- `eth_getFilterChanges` (api.ts): returns the filter's accumulated
`updates` and resets the buffer to `[]` in the same step; an unknown id
throws `filter not found`. -/
def eth_getFilterChanges (st : FiltersState) (filterId : Nat) :
    Except (List Char) (List Nat × FiltersState) :=
  match st.filters.find? (fun p => p.1 = filterId) with
  | some (_, filter) =>
    .ok (filter.updates,
      { filters := setEntry st.filters filterId { updates := [] } })
  | none => .error (("filter not found").toList)

/-! ## Transaction submission (`eth_sendTransaction`) -/

/-- The wallet state `eth_sendTransaction` consults: the known accounts and
the unlocked accounts (address → secret key). -/
structure Wallet where
  knownAccounts : List (List Char)
  unlockedAccounts : List (List Char × Nat)
deriving DecidableEq, Repr

/-- The slice of the RPC transaction object `eth_sendTransaction` inspects:
the sender (absent when the `from` field is missing), and the transaction's
hash once signed. -/
structure RpcTransaction where
  fromAddress : Option (List Char)
  hash : List Char
deriving DecidableEq, Repr

/-- The state `eth_sendTransaction` may touch: the wallet, the pool, and the
committed chain (which submission never extends synchronously). -/
structure SubmitState where
  wallet : Wallet
  pool : List RpcTransaction
  blocks : List Block
deriving DecidableEq, Repr

/-- Modelled from the spec: `blockchain.queueTransaction(tx, secretKey)` (the
`Blockchain` class is not under `src/`); validates and queues the
transaction, resolving with its hash as soon as it is queued — not after it
is mined (§5: "`submit` itself returns as soon as the transaction is
validated and queued"). -/
def Blockchain.queueTransaction (st : SubmitState) (tx : RpcTransaction) :
    (List Char) × SubmitState :=
  (tx.hash, { st with pool := st.pool ++ [tx] })

/-- `eth_sendTransaction` (api.ts): rejects when `from` is missing; rejects a
locked-but-known sender with `authentication needed: password or unlock` and
an unrecognized sender with `sender account not recognized`; otherwise signs
with the unlocked key and queues the transaction, returning its hash. The
first component is the RPC outcome, the second the (possibly updated)
engine state. -/
def eth_sendTransaction (st : SubmitState) (transaction : RpcTransaction) :
    Except (List Char) (List Char) × SubmitState :=
  match transaction.fromAddress with
  | none => (.error (("from not found; is required").toList), st)
  | some fromString =>
    let isKnownAccount := fromString ∈ st.wallet.knownAccounts
    let isUnlockedAccount :=
      (st.wallet.unlockedAccounts.find? (fun p => p.1 = fromString)).isSome
    if isUnlockedAccount then
      let (hash, st') := Blockchain.queueTransaction st transaction
      (.ok hash, st')
    else
      let msg :=
        if isKnownAccount then ("authentication needed: password or unlock")
        else ("sender account not recognized")
      (.error msg.toList, st)

/-! ## Miner control (`miner_start` / `miner_stop`) -/

/-- Modelled from the spec: the miner's control states (§4.4). -/
inductive MinerStatus where
  | idle
  | mining
  | paused
deriving DecidableEq, Repr

/-- Modelled from the spec: the miner's state: its control status, whether a
mining operation is currently in flight, and the batch a legacy-instamine
resume would mine. -/
structure MinerState where
  status : MinerStatus
  inFlight : Bool
  pendingBatch : List TypedTransaction
deriving DecidableEq, Repr

/-- Modelled from the spec: `blockchain.resume(threads)` (§4.4): idle/paused
→ mining, resolving with the transactions mined while catching up (legacy
instamine); a second `start` while already mining is a no-op returning
success, so resuming an already-mining miner changes nothing and resolves
with `null`. -/
def Blockchain.resume (s : MinerState) :
    Option (List TypedTransaction) × MinerState :=
  match s.status with
  | .mining => (none, s)
  | _ =>
    (some s.pendingBatch, { s with status := .mining, pendingBatch := [] })

/-- Modelled from the spec: `blockchain.pause()` (§4.4): mining → paused; the
in-flight mining operation, if any, still completes (the flag is untouched). -/
def Blockchain.pause (s : MinerState) : MinerState :=
  { s with status := .paused }

/-- `miner_start` (api.ts): resumes the miner; under `legacyInstamine` the
transactions mined while resuming are asserted when `vmErrorsOnRPCResponse`
is set (throwing the aggregated error); returns `true`. -/
def miner_start (legacyInstamine vmErrorsOnRPCResponse : Bool)
    (s : MinerState) : Except VMError (Bool × MinerState) :=
  if legacyInstamine then
    let (transactions, s') := Blockchain.resume s
    match transactions with
    | some txs =>
      if vmErrorsOnRPCResponse then
        match assertExceptionalTransactions txs with
        | some e => .error e
        | none => .ok (true, s')
      else .ok (true, s')
    | none => .ok (true, s')
  else
    let (_, s') := Blockchain.resume s
    .ok (true, s')

/-- `miner_stop` (api.ts): pauses the miner and returns `true`. -/
def miner_stop (s : MinerState) : Bool × MinerState :=
  (true, Blockchain.pause s)

/-! ## The storage trie and `evm_setStorageAt` -/

/-- A merkle-trie handle as held by `Blockchain#trie`: a mutable `root`
pointing into the shared node store; `copy()` yields an independent handle
over the same store. -/
structure TrieHandle where
  root : Nat
deriving DecidableEq, Repr

/-- The shared trie node store: each root addresses one immutable key/value
view; `put` on a handle writes a fresh root and repoints the handle. -/
abbrev TrieDb := List (Nat × List (List Nat × List Char))

/-- A root not yet present in the store (successor of the maximum). -/
def freshRoot (db : TrieDb) : Nat :=
  (db.map Prod.fst).foldr max 0 + 1

/-- Read `key` in the view addressed by `root`. -/
def trieGet (db : TrieDb) (root : Nat) (key : List Nat) :
    Option (List Char) :=
  (db.find? (fun p => p.1 = root)).bind
    (fun view => (view.2.find? (fun e => e.1 = key)).map Prod.snd)

/-- `trie.put(key, value)`: derives a fresh root whose view updates `key` in
the view the handle currently addresses; earlier roots stay untouched. -/
def triePut (db : TrieDb) (root : Nat) (key : List Nat) (value : List Char) :
    Nat × TrieDb :=
  let oldView := ((db.find? (fun p => p.1 = root)).map Prod.snd).getD []
  let newView :=
    if key ∈ oldView.map Prod.fst then
      oldView.map (fun e => if e.1 = key then (key, value) else e)
    else oldView ++ [(key, value)]
  let newRoot := freshRoot db
  (newRoot, db ++ [(newRoot, newView)])

/-- The engine state `evm_setStorageAt` touches: the canonical shared trie
handle, the shared node store, the account records reachable from each state
root, and the committed blocks. -/
structure StorageEngine where
  trie : TrieHandle
  db : TrieDb
  accountsByRoot : List (Nat × List (List Nat × Account))
  blocks : List Block
deriving DecidableEq, Repr

/-- The 32-byte padding/truncation of the storage position in
`evm_setStorageAt`: short buffers are left-padded with zeros, 32-byte
buffers kept, longer ones truncated to their last 32 bytes (`slice(-32)`). -/
def padPosition (posBuff : List Nat) : List Nat :=
  if posBuff.length < 32 then
    List.replicate (32 - posBuff.length) 0 ++ posBuff
  else if posBuff.length = 32 then posBuff
  else posBuff.drop (posBuff.length - 32)

/-- `evm_setStorageAt` (api.ts): fetches the raw block, makes a private
`copy()` of the shared trie and points the copy at the block's state root to
read the account record; then reassigns the *shared* handle's root to the
account's storage root (`this.#blockchain.trie.root = decoded[2]`) and
writes the value through the shared handle (`this.#blockchain.trie.put`). -/
def evm_setStorageAt (se : StorageEngine) (address : List Nat)
    (position : List Nat) (storage : List Char) (blockNumber : Nat) :
    Except (List Char) StorageEngine :=
  match se.blocks.find? (fun b => b.number = blockNumber) with
  | none => .error (("header not found").toList)
  | some block =>
    let trie : TrieHandle := { root := se.trie.root }
    let blockStateRoot := block.stateRoot
    let trie : TrieHandle := { trie with root := blockStateRoot }
    match (se.accountsByRoot.find? (fun p => p.1 = trie.root)).bind
        (fun accounts =>
          (accounts.2.find? (fun a => a.1 = address)).map Prod.snd) with
    | none => .error (("account not found").toList)
    | some addressData =>
      let paddedPosBuff := padPosition position
      let sharedRoot := addressData.storageRoot
      let (newRoot, db') := triePut se.db sharedRoot paddedPosBuff storage
      .ok { se with trie := { root := newRoot }, db := db' }

/-! ## Speculative execution (`eth_call` / `eth_estimateGas`) -/

/-- A point-in-time world-state view: address → account record. -/
abbrev WorldView := List (Nat × Account)

/-- `trie.copy()` / `vm.copy()` as seen by a caller: an independent view over
the same immutable nodes (structural sharing), so in a functional model the
view itself. -/
def trieCopy (view : WorldView) : WorldView := view

/-- The committed world-state view at a state root. -/
def stateAtRoot (es : EngineState) (root : Nat) : WorldView :=
  ((es.statesByRoot.find? (fun p => p.1 = root)).map Prod.snd).getD []

/-- `getAccount(address, blockRef)`: balance and nonce as read from the
state root of the block the reference resolves to. -/
def getAccount (es : EngineState) (number : Nat) (address : Nat) :
    Option (Nat × Nat) :=
  match blocksGet es number with
  | .ok b =>
    ((stateAtRoot es b.stateRoot).find? (fun p => p.1 = address)).map
      (fun p => (p.2.balance, p.2.nonce))
  | .error _ => none

/-- `getStorageAt(address, slot, blockRef)` against the same resolution. -/
def getStorageAt (es : EngineState) (number : Nat) (address : Nat)
    (slot : Nat) : Option Nat :=
  match blocksGet es number with
  | .ok b =>
    ((stateAtRoot es b.stateRoot).find? (fun p => p.1 = address)).bind
      (fun p => (p.2.storage.find? (fun e => e.1 = slot)).map Prod.snd)
  | .error _ => none

/-- Modelled from the spec: `blockchain.simulateTransaction` (§4.3, the
`Blockchain` class is not under `src/`): runs the black-box
`execute(tx, state)` against a private `copy` of the trie view at the parent
block's root and discards the copy, leaving the engine state untouched. -/
def Blockchain.simulateTransaction
    (execute : WorldView → WorldView × List Nat) (es : EngineState)
    (parentStateRoot : Nat) : List Nat × EngineState :=
  let view := trieCopy (stateAtRoot es parentStateRoot)
  let result := execute view
  (result.2, es)

/-- `eth_call` (api.ts): resolves the parent block, assembles the simulated
transaction and runtime block, and delegates to
`blockchain.simulateTransaction`; the first component is the RPC outcome,
the second the engine state afterwards. -/
def eth_call (execute : WorldView → WorldView × List Nat)
    (es : EngineState) (blockNumber : Nat) :
    Except (List Char) (List Nat) × EngineState :=
  match blocksGet es blockNumber with
  | .error e => (.error e, es)
  | .ok parentBlock =>
    let (returnValue, es') :=
      Blockchain.simulateTransaction execute es parentBlock.stateRoot
    (.ok returnValue, es')

/-- Modelled from the spec: the gas estimator (`helpers/gas-estimator`, not
under `src/`): re-runs the black-box execution over fresh `vm.copy()` views
at candidate gas limits (§4.3) and reports the minimal passing limit;
every run is against a discarded copy. -/
def runGasSearch (execute : WorldView → WorldView × List Nat)
    (candidates : List Nat) (view : WorldView) : Nat :=
  candidates.foldl
    (fun best g =>
      let run := execute (trieCopy view)
      if run.2.length ≤ g then min best g else best)
    0

/-- `eth_estimateGas` (api.ts): resolves the parent block, builds
`generateVM = () => blockchain.vm.copy()` and hands execution to the gas
estimator; the engine state is returned unchanged alongside the estimate. -/
def eth_estimateGas (execute : WorldView → WorldView × List Nat)
    (candidates : List Nat) (es : EngineState) (blockNumber : Nat) :
    Except (List Char) Nat × EngineState :=
  match blocksGet es blockNumber with
  | .error e => (.error e, es)
  | .ok parentBlock =>
    let view := stateAtRoot es parentBlock.stateRoot
    (.ok (runGasSearch execute candidates view), es)

/-! ## Generic association-list lemmas -/

theorem find?_append_some {α : Type} (l₁ l₂ : List α) (p : α → Bool) (x : α)
    (h : l₁.find? p = some x) : (l₁ ++ l₂).find? p = some x := by
  induction l₁ with
  | nil => simp [List.find?] at h
  | cons a l ih =>
    cases hpa : p a with
    | true =>
      simp only [List.find?, hpa] at h
      simp [List.find?, hpa, h]
    | false =>
      simp only [List.find?, hpa] at h
      simp only [List.cons_append, List.find?, hpa]
      exact ih h

theorem find?_append_none {α : Type} (l₁ l₂ : List α) (p : α → Bool)
    (h : l₁.find? p = none) : (l₁ ++ l₂).find? p = l₂.find? p := by
  induction l₁ with
  | nil => simp
  | cons a l ih =>
    by_cases hpa : p a
    · simp [List.find?, hpa] at h
    · simp only [List.find?, hpa] at h
      simpa [List.find?, hpa] using ih h

/-! ## C1: speculative execution leaves the canonical state untouched -/

theorem eth_call_snd (execute : WorldView → WorldView × List Nat)
    (es : EngineState) (blockNumber : Nat) :
    (eth_call execute es blockNumber).2 = es := by
  unfold eth_call Blockchain.simulateTransaction
  cases blocksGet es blockNumber <;> rfl

theorem eth_estimateGas_snd (execute : WorldView → WorldView × List Nat)
    (candidates : List Nat) (es : EngineState) (blockNumber : Nat) :
    (eth_estimateGas execute candidates es blockNumber).2 = es := by
  unfold eth_estimateGas
  cases blocksGet es blockNumber <;> rfl

/-- C1: for every transaction call object (black-box execution) and block
reference, `eth_call` and `eth_estimateGas` never mutate the canonical
committed state: they run against a private copy of the trie/VM, the engine
state after the call is the state before it, and a subsequent read of any
account's balance, nonce, or storage against the same block reference
returns the same value as before the call. -/
theorem call_and_estimateGas_never_mutate_state
    (execute : WorldView → WorldView × List Nat) (candidates : List Nat)
    (es : EngineState) (blockNumber ref address slot : Nat) :
    (eth_call execute es blockNumber).2 = es
    ∧ (eth_estimateGas execute candidates es blockNumber).2 = es
    ∧ getAccount (eth_call execute es blockNumber).2 ref address
        = getAccount es ref address
    ∧ getStorageAt (eth_call execute es blockNumber).2 ref address slot
        = getStorageAt es ref address slot
    ∧ getAccount (eth_estimateGas execute candidates es blockNumber).2 ref
        address = getAccount es ref address
    ∧ getStorageAt (eth_estimateGas execute candidates es blockNumber).2 ref
        address slot = getStorageAt es ref address slot := by
  refine ⟨eth_call_snd execute es blockNumber,
    eth_estimateGas_snd execute candidates es blockNumber, ?_, ?_, ?_, ?_⟩
  · rw [eth_call_snd]
  · rw [eth_call_snd]
  · rw [eth_estimateGas_snd]
  · rw [eth_estimateGas_snd]

/-! ## C8: absent blocks and unmined transactions produce `null` -/

/-- C8: for every block number or hash that does not resolve to a committed
block, `eth_getBlockByNumber` and `eth_getBlockByHash` return `null` rather
than failing, and for every hash of a transaction that has not been mined,
`eth_getTransactionReceipt` returns `null`. -/
theorem absent_lookups_return_null (es : EngineState) (number hash : Nat)
    (transactionHash : List Char)
    (hnum : es.blocks.find? (fun b => b.number = number) = none)
    (hhash : es.blocks.find? (fun b => b.hash = hash) = none)
    (htx : transactionsGet es transactionHash = none) :
    eth_getBlockByNumber es number = none
    ∧ eth_getBlockByHash es hash = none
    ∧ eth_getTransactionReceipt es transactionHash = none := by
  refine ⟨?_, ?_, ?_⟩
  · simp [eth_getBlockByNumber, blocksGet, hnum]
  · simp [eth_getBlockByHash, blocksGetByHash, hhash]
  · simp [eth_getTransactionReceipt, htx]

/-- Witness for C8 at a one-block chain and unresolvable references. -/
theorem absent_lookups_return_null_witness :
    eth_getBlockByNumber
        ⟨[⟨0, 5, 7, []⟩], [], [], []⟩ 3 = none
    ∧ eth_getBlockByHash ⟨[⟨0, 5, 7, []⟩], [], [], []⟩ 9 = none
    ∧ eth_getTransactionReceipt ⟨[⟨0, 5, 7, []⟩], [], [], []⟩
        (("dead").toList) = none :=
  absent_lookups_return_null ⟨[⟨0, 5, 7, []⟩], [], [], []⟩ 3 9
    (("dead").toList) (by decide) (by decide) (by decide)

/-! ## C10: missing-block behavior of the two indexed transaction lookups -/

/-- C10: `eth_getTransactionByBlockNumberAndIndex` dereferences the
looked-up block without a null guard, so for every block reference that
resolves to no block it fails with a runtime error instead of returning
`null`, while the hash-indexed variant
`eth_getTransactionByBlockHashAndIndex` returns `null` for a missing
block. -/
theorem indexed_lookup_null_guard_asymmetry (es : EngineState)
    (number hash index : Nat)
    (hnum : es.blocks.find? (fun b => b.number = number) = none)
    (hhash : es.blocks.find? (fun b => b.hash = hash) = none) :
    eth_getTransactionByBlockNumberAndIndex es number index
      = .error (("TypeError: Cannot read properties of null").toList)
    ∧ eth_getTransactionByBlockHashAndIndex es hash index = .ok none := by
  constructor
  · simp [eth_getTransactionByBlockNumberAndIndex, eth_getBlockByNumber,
      blocksGet, hnum]
  · simp [eth_getTransactionByBlockHashAndIndex, eth_getBlockByHash,
      blocksGetByHash, hhash]

/-- Witness for C10 at a one-block chain and unresolvable references. -/
theorem indexed_lookup_null_guard_asymmetry_witness :
    eth_getTransactionByBlockNumberAndIndex
        ⟨[⟨0, 5, 7, []⟩], [], [], []⟩ 3 0
      = .error (("TypeError: Cannot read properties of null").toList)
    ∧ eth_getTransactionByBlockHashAndIndex
        ⟨[⟨0, 5, 7, []⟩], [], [], []⟩ 9 0 = .ok none :=
  indexed_lookup_null_guard_asymmetry ⟨[⟨0, 5, 7, []⟩], [], [], []⟩ 3 9 0
    (by decide) (by decide)

/-! ## C7: miner start/stop re-entrancy -/

/-- C7: starting the miner is re-entrant-safe: `miner_start` called while
the miner is already running is a no-op that still returns success
(`true`), and `miner_stop` moves the miner to paused and returns `true`
without interrupting an in-flight mining operation. -/
theorem miner_start_reentrant_stop_pauses
    (legacyInstamine vmErrorsOnRPCResponse : Bool) (s : MinerState)
    (hmining : s.status = .mining) :
    miner_start legacyInstamine vmErrorsOnRPCResponse s = .ok (true, s)
    ∧ (miner_stop s).1 = true
    ∧ (miner_stop s).2.status = .paused
    ∧ (miner_stop s).2.inFlight = s.inFlight
    ∧ (miner_stop s).2.pendingBatch = s.pendingBatch := by
  refine ⟨?_, rfl, rfl, rfl, rfl⟩
  cases legacyInstamine <;>
    simp [miner_start, Blockchain.resume, hmining]

/-- Witness for C7 at an already-mining miner with an in-flight operation. -/
theorem miner_start_reentrant_stop_pauses_witness :
    miner_start true true ⟨.mining, true, []⟩ = .ok (true, ⟨.mining, true, []⟩)
    ∧ (miner_stop ⟨.mining, true, []⟩).1 = true
    ∧ (miner_stop ⟨.mining, true, []⟩).2.status = .paused
    ∧ (miner_stop ⟨.mining, true, []⟩).2.inFlight
        = (⟨.mining, true, []⟩ : MinerState).inFlight
    ∧ (miner_stop ⟨.mining, true, []⟩).2.pendingBatch
        = (⟨.mining, true, []⟩ : MinerState).pendingBatch :=
  miner_start_reentrant_stop_pauses true true ⟨.mining, true, []⟩ rfl

/-! ## C2: snapshot ids and revert consumption -/

/-- C2: snapshot ids returned by `evm_snapshot` form a monotonically
increasing sequence, and after a successful `evm_revert(k)`, the snapshot
`k` itself and every snapshot with id greater than `k` are deleted (every
surviving id is `< k`), so any subsequent `evm_revert(j)` with `j ≥ k`
fails; an unknown id makes `evm_revert` return `false`. -/
theorem snapshot_ids_monotone_revert_consumes (s : SnapshotState) (k j : Nat)
    (hrev : (evm_revert s k).1 = true) (hkj : k ≤ j) :
    ((evm_snapshot s).1 < (evm_snapshot (evm_snapshot s).2).1)
    ∧ (∀ p ∈ (evm_revert s k).2.snapshots, p.1 < k)
    ∧ ((evm_revert (evm_revert s k).2 j).1 = false)
    ∧ (∀ s' : SnapshotState,
        s'.snapshots.find? (fun p => p.1 = k) = none →
        (evm_revert s' k).1 = false) := by
  have hmem : ∀ p ∈ (evm_revert s k).2.snapshots, p.1 < k := by
    intro p hp
    unfold evm_revert Blockchain.revert at hp hrev
    cases hf : s.snapshots.find? (fun p => p.1 = k) with
    | none => rw [hf] at hrev; simp at hrev
    | some entry =>
      rw [hf] at hp
      obtain ⟨_, tuple⟩ := entry
      simp only [List.mem_filter] at hp
      exact of_decide_eq_true hp.2
  have hunknown : ∀ s' : SnapshotState,
      s'.snapshots.find? (fun p => p.1 = k) = none →
      (evm_revert s' k).1 = false := by
    intro s' h
    simp [evm_revert, Blockchain.revert, h]
  have hunknownJ : ∀ s' : SnapshotState,
      s'.snapshots.find? (fun p => p.1 = j) = none →
      (evm_revert s' j).1 = false := by
    intro s' h
    simp [evm_revert, Blockchain.revert, h]
  refine ⟨?_, hmem, ?_, hunknown⟩
  · simp [evm_snapshot, Blockchain.snapshot]
  · refine hunknownJ _ ?_
    rw [List.find?_eq_none]
    intro p hp hpj
    have hlt : p.1 < k := hmem p hp
    have : p.1 = j := of_decide_eq_true hpj
    omega

/-- Witness for C2 at a two-snapshot state, reverting the first id. -/
theorem snapshot_ids_monotone_revert_consumes_witness :
    ((evm_snapshot ⟨2, [(1, ⟨0, 0, [], 0⟩), (2, ⟨1, 1, [], 0⟩)],
        ⟨1, 1, [], 0⟩⟩).1
      < (evm_snapshot (evm_snapshot ⟨2, [(1, ⟨0, 0, [], 0⟩),
          (2, ⟨1, 1, [], 0⟩)], ⟨1, 1, [], 0⟩⟩).2).1)
    ∧ (∀ p ∈ (evm_revert ⟨2, [(1, ⟨0, 0, [], 0⟩), (2, ⟨1, 1, [], 0⟩)],
        ⟨1, 1, [], 0⟩⟩ 1).2.snapshots, p.1 < 1)
    ∧ ((evm_revert (evm_revert ⟨2, [(1, ⟨0, 0, [], 0⟩), (2, ⟨1, 1, [], 0⟩)],
        ⟨1, 1, [], 0⟩⟩ 1).2 2).1 = false)
    ∧ (∀ s' : SnapshotState,
        s'.snapshots.find? (fun p => p.1 = 1) = none →
        (evm_revert s' 1).1 = false) :=
  snapshot_ids_monotone_revert_consumes
    ⟨2, [(1, ⟨0, 0, [], 0⟩), (2, ⟨1, 1, [], 0⟩)], ⟨1, 1, [], 0⟩⟩ 1 2
    (by decide) (by decide)

/-! ## C5: polling a filter drains its buffer atomically -/

theorem find?_setEntry (m : List (Nat × Filter)) (k : Nat) (v : Filter)
    (h : (m.find? (fun p => p.1 = k)).isSome = true) :
    (setEntry m k v).find? (fun p => p.1 = k) = some (k, v) := by
  induction m with
  | nil => simp [List.find?] at h
  | cons a l ih =>
    by_cases hak : a.1 = k
    · simp [setEntry, List.find?, hak]
    · simp only [List.find?, decide_eq_true_eq, hak, decide_False,
        Option.isSome] at h
      have := ih (by
        cases hfl : l.find? (fun p => p.1 = k) with
        | none => rw [hfl] at h; simp at h
        | some x => simp [Option.isSome, hfl])
      simpa [setEntry, List.find?, hak] using this

/-- C5: for every registered filter, `eth_getFilterChanges` returns the
events accumulated since the previous poll and atomically clears the
filter's buffer: a second poll with no intervening matching events returns
an empty list, and a poll after new events returns exactly those events, so
no event is ever returned by two polls. -/
theorem getFilterChanges_drains_buffer (st : FiltersState) (id : Nat)
    (f : Filter) (hreg : st.filters.find? (fun p => p.1 = id) = some (id, f)) :
    ∃ st₁,
      eth_getFilterChanges st id = .ok (f.updates, st₁)
      ∧ (∃ st₂, eth_getFilterChanges st₁ id = .ok ([], st₂))
      ∧ ∀ logs, ∃ st₃,
          eth_getFilterChanges (pushUpdates st₁ id logs) id
            = .ok (logs, st₃) := by
  refine ⟨⟨setEntry st.filters id ⟨[]⟩⟩, ?_, ?_, ?_⟩
  · simp [eth_getFilterChanges, hreg]
  · have h1 : (setEntry st.filters id (⟨[]⟩ : Filter)).find?
        (fun p => p.1 = id) = some (id, ⟨[]⟩) :=
      find?_setEntry st.filters id ⟨[]⟩ (by simp [hreg, Option.isSome])
    exact ⟨⟨setEntry (setEntry st.filters id ⟨[]⟩) id ⟨[]⟩⟩,
      by simp [eth_getFilterChanges, h1]⟩
  · intro logs
    have h1 : (setEntry st.filters id (⟨[]⟩ : Filter)).find?
        (fun p => p.1 = id) = some (id, ⟨[]⟩) :=
      find?_setEntry st.filters id ⟨[]⟩ (by simp [hreg, Option.isSome])
    have h2 : (setEntry (setEntry st.filters id (⟨[]⟩ : Filter)) id
        (⟨[] ++ logs⟩ : Filter)).find? (fun p => p.1 = id)
        = some (id, ⟨[] ++ logs⟩) :=
      find?_setEntry _ id _ (by simp [h1, Option.isSome])
    simp only [List.nil_append] at h2
    refine ⟨⟨setEntry (setEntry (setEntry st.filters id ⟨[]⟩) id
      ⟨logs⟩) id ⟨[]⟩⟩, ?_⟩
    simp [pushUpdates, eth_getFilterChanges, h1, h2]

/-- Witness for C5 at a state holding one filter with two buffered logs. -/
theorem getFilterChanges_drains_buffer_witness :
    ∃ st₁,
      eth_getFilterChanges ⟨[(1, ⟨[7, 8]⟩)]⟩ 1 = .ok ([7, 8], st₁)
      ∧ (∃ st₂, eth_getFilterChanges st₁ 1 = .ok ([], st₂))
      ∧ ∀ logs, ∃ st₃,
          eth_getFilterChanges (pushUpdates st₁ 1 logs) 1
            = .ok (logs, st₃) :=
  getFilterChanges_drains_buffer ⟨[(1, ⟨[7, 8]⟩)]⟩ 1 ⟨[7, 8]⟩ (by decide)

/-! ## C6: synchronous validation in `eth_sendTransaction` -/

/-- C6: for every transaction submitted via `eth_sendTransaction` whose
sender address is missing, not recognized, or locked, the call fails
synchronously with a validation error and the transaction never enters the
pool (the state is unchanged); a valid submission returns the transaction
hash without waiting for the transaction to be mined (only the pool grows;
the committed chain is untouched). -/
theorem sendTransaction_validation (st : SubmitState) (tx : RpcTransaction) :
    (tx.fromAddress = none →
      eth_sendTransaction st tx
        = (.error (("from not found; is required").toList), st))
    ∧ (∀ a, tx.fromAddress = some a →
        (st.wallet.unlockedAccounts.find? (fun p => p.1 = a)).isSome
          = false →
        ((eth_sendTransaction st tx).2 = st
          ∧ (a ∈ st.wallet.knownAccounts →
              (eth_sendTransaction st tx).1 = .error
                (("authentication needed: password or unlock").toList))
          ∧ (a ∉ st.wallet.knownAccounts →
              (eth_sendTransaction st tx).1 = .error
                (("sender account not recognized").toList))))
    ∧ (∀ a, tx.fromAddress = some a →
        (st.wallet.unlockedAccounts.find? (fun p => p.1 = a)).isSome
          = true →
        eth_sendTransaction st tx
          = (.ok tx.hash, { st with pool := st.pool ++ [tx] }))
    ∧ (eth_sendTransaction st tx).2.blocks = st.blocks := by
  refine ⟨?_, ?_, ?_, ?_⟩
  · intro h; simp [eth_sendTransaction, h]
  · intro a ha hlocked
    refine ⟨?_, ?_, ?_⟩
    · simp [eth_sendTransaction, ha, hlocked]
    · intro hknown
      simp [eth_sendTransaction, ha, hlocked, hknown]
    · intro hunknown
      simp [eth_sendTransaction, ha, hlocked, hunknown]
  · intro a ha hunlocked
    simp [eth_sendTransaction, ha, hunlocked, Blockchain.queueTransaction]
  · cases ha : tx.fromAddress with
    | none => simp [eth_sendTransaction, ha]
    | some a =>
      cases hu : (st.wallet.unlockedAccounts.find?
          (fun p => p.1 = a)).isSome with
      | true =>
        simp [eth_sendTransaction, ha, hu, Blockchain.queueTransaction]
      | false => simp [eth_sendTransaction, ha, hu]

/-- Witness for C6: a missing sender, a locked known sender, an unknown
sender, and an unlocked sender against a one-account wallet. -/
theorem sendTransaction_validation_witness :
    ((⟨none, ("aa").toList⟩ : RpcTransaction).fromAddress = none →
      eth_sendTransaction
          ⟨⟨[("k").toList], [(("u").toList, 5)]⟩, [], []⟩
          ⟨none, ("aa").toList⟩
        = (.error (("from not found; is required").toList),
            ⟨⟨[("k").toList], [(("u").toList, 5)]⟩, [], []⟩))
    ∧ (∀ a, (⟨none, ("aa").toList⟩ : RpcTransaction).fromAddress = some a →
        ((⟨[("k").toList], [(("u").toList, 5)]⟩ :
            Wallet).unlockedAccounts.find? (fun p => p.1 = a)).isSome
          = false →
        ((eth_sendTransaction
            ⟨⟨[("k").toList], [(("u").toList, 5)]⟩, [], []⟩
            ⟨none, ("aa").toList⟩).2
          = ⟨⟨[("k").toList], [(("u").toList, 5)]⟩, [], []⟩
          ∧ (a ∈ (⟨[("k").toList], [(("u").toList, 5)]⟩ :
                Wallet).knownAccounts →
              (eth_sendTransaction
                ⟨⟨[("k").toList], [(("u").toList, 5)]⟩, [], []⟩
                ⟨none, ("aa").toList⟩).1 = .error
                  (("authentication needed: password or unlock").toList))
          ∧ (a ∉ (⟨[("k").toList], [(("u").toList, 5)]⟩ :
                Wallet).knownAccounts →
              (eth_sendTransaction
                ⟨⟨[("k").toList], [(("u").toList, 5)]⟩, [], []⟩
                ⟨none, ("aa").toList⟩).1 = .error
                  (("sender account not recognized").toList))))
    ∧ (∀ a, (⟨none, ("aa").toList⟩ : RpcTransaction).fromAddress = some a →
        ((⟨[("k").toList], [(("u").toList, 5)]⟩ :
            Wallet).unlockedAccounts.find? (fun p => p.1 = a)).isSome
          = true →
        eth_sendTransaction
            ⟨⟨[("k").toList], [(("u").toList, 5)]⟩, [], []⟩
            ⟨none, ("aa").toList⟩
          = (.ok (⟨none, ("aa").toList⟩ : RpcTransaction).hash,
              ⟨⟨[("k").toList], [(("u").toList, 5)]⟩,
                [] ++ [⟨none, ("aa").toList⟩], []⟩))
    ∧ (eth_sendTransaction
        ⟨⟨[("k").toList], [(("u").toList, 5)]⟩, [], []⟩
        ⟨none, ("aa").toList⟩).2.blocks
        = (⟨⟨[("k").toList], [(("u").toList, 5)]⟩, [], []⟩ :
            SubmitState).blocks :=
  sendTransaction_validation
    ⟨⟨[("k").toList], [(("u").toList, 5)]⟩, [], []⟩ ⟨none, ("aa").toList⟩

/-! ## C9: `evm_setStorageAt` writes through the shared trie handle -/

theorem mem_le_foldr_max (l : List Nat) (x : Nat) (hx : x ∈ l) :
    x ≤ l.foldr max 0 := by
  induction l with
  | nil => simp at hx
  | cons a t ih =>
    rcases List.mem_cons.mp hx with h | h
    · subst h; exact le_max_left _ _
    · exact le_trans (ih h) (le_max_right _ _)

theorem freshRoot_not_mem (db : TrieDb) : freshRoot db ∉ db.map Prod.fst := by
  intro h
  have := mem_le_foldr_max (db.map Prod.fst) _ h
  simp only [freshRoot] at this
  omega

theorem mem_keys_find?_isSome {κ ν : Type} [DecidableEq κ]
    (m : List (κ × ν)) (k : κ) (h : k ∈ m.map Prod.fst) :
    ∃ x, m.find? (fun p => p.1 = k) = some x := by
  induction m with
  | nil => simp at h
  | cons a t ih =>
    by_cases hak : a.1 = k
    · exact ⟨a, by simp [List.find?, hak]⟩
    · simp only [List.map_cons, List.mem_cons] at h
      have : k ∈ t.map Prod.fst := by
        rcases h with h' | h'
        · exact absurd h'.symm hak
        · exact h'
      obtain ⟨x, hx⟩ := ih this
      exact ⟨x, by simp [List.find?, hak, hx]⟩

theorem find?_replace {κ ν : Type} [DecidableEq κ] (m : List (κ × ν))
    (k : κ) (v : ν) (h : k ∈ m.map Prod.fst) :
    (m.map (fun e => if e.1 = k then (k, v) else e)).find?
      (fun e => e.1 = k) = some (k, v) := by
  induction m with
  | nil => simp at h
  | cons a t ih =>
    by_cases hak : a.1 = k
    · simp [List.find?, hak]
    · simp only [List.map_cons, List.mem_cons] at h
      have : k ∈ t.map Prod.fst := by
        rcases h with h' | h'
        · exact absurd h'.symm hak
        · exact h'
      simpa [List.find?, hak] using ih this

theorem find?_snoc {κ ν : Type} [DecidableEq κ] (m : List (κ × ν))
    (k : κ) (v : ν) (h : k ∉ m.map Prod.fst) :
    (m ++ [(k, v)]).find? (fun e => e.1 = k) = some (k, v) := by
  have hnone : m.find? (fun e => e.1 = k) = none := by
    rw [List.find?_eq_none]
    intro x hx hxk
    exact h (List.mem_map.mpr ⟨x, hx, of_decide_eq_true hxk⟩)
  rw [find?_append_none _ _ _ hnone]
  simp [List.find?]

theorem find?_replace_ne {κ ν : Type} [DecidableEq κ] (m : List (κ × ν))
    (key k : κ) (v : ν) (h : k ≠ key) :
    (m.map (fun e => if e.1 = key then (key, v) else e)).find?
      (fun e => e.1 = k) = m.find? (fun e => e.1 = k) := by
  induction m with
  | nil => simp
  | cons a t ih =>
    by_cases hak : a.1 = key
    · have h₁ : ¬ (key = k) := fun hc => h hc.symm
      simp [List.find?, hak, h₁, fun hc => h₁ (hak ▸ hc : key = k), ih]
    · by_cases hk : a.1 = k
      · simp [List.find?, hak, hk, h]
      · simp [List.find?, hak, hk, ih]

theorem find?_snoc_ne {κ ν : Type} [DecidableEq κ] (m : List (κ × ν))
    (key k : κ) (v : ν) (h : k ≠ key) :
    (m ++ [(key, v)]).find? (fun e => e.1 = k)
      = m.find? (fun e => e.1 = k) := by
  cases hf : m.find? (fun e => e.1 = k) with
  | some x => exact find?_append_some _ _ _ _ hf
  | none =>
    rw [find?_append_none _ _ _ hf]
    simp [List.find?, Ne.symm h]

/-- C9: `evm_setStorageAt`, although it creates a private copy of the trie
for reading the account, performs its write through the blockchain's shared
trie: the resulting engine state's trie handle points at a fresh root that
extends the *account's storage root* (not the copy's root) with the written
value, while every pre-existing root — including the private copy's — is
left untouched. -/
theorem setStorageAt_writes_through_shared_trie (se : StorageEngine)
    (address position : List Nat) (storage : List Char) (blockNumber : Nat)
    (block : Block) (addressData : Account)
    (hblock : se.blocks.find? (fun b => b.number = blockNumber) = some block)
    (hacct : (se.accountsByRoot.find? (fun p => p.1 = block.stateRoot)).bind
        (fun accounts =>
          (accounts.2.find? (fun a => a.1 = address)).map Prod.snd)
      = some addressData) :
    ∃ se', evm_setStorageAt se address position storage blockNumber = .ok se'
      ∧ se'.trie.root ∉ se.db.map Prod.fst
      ∧ trieGet se'.db se'.trie.root (padPosition position) = some storage
      ∧ (∀ k, k ≠ padPosition position →
          trieGet se'.db se'.trie.root k
            = trieGet se.db addressData.storageRoot k)
      ∧ (∀ r ∈ se.db.map Prod.fst, ∀ k,
          trieGet se'.db r k = trieGet se.db r k)
      ∧ se'.accountsByRoot = se.accountsByRoot
      ∧ se'.blocks = se.blocks := by
  have hres : evm_setStorageAt se address position storage blockNumber
      = .ok { se with
          trie := ⟨(triePut se.db addressData.storageRoot
            (padPosition position) storage).1⟩
          db := (triePut se.db addressData.storageRoot
            (padPosition position) storage).2 } := by
    simp only [evm_setStorageAt, hblock, hacct]
  set key := padPosition position with hkey
  set oldView := (((se.db.find?
    (fun p => p.1 = addressData.storageRoot)).map Prod.snd).getD []) with hov
  set newView := (if key ∈ oldView.map Prod.fst then
      oldView.map (fun e => if e.1 = key then (key, storage) else e)
    else oldView ++ [(key, storage)]) with hnv
  have htp : triePut se.db addressData.storageRoot key storage
      = (freshRoot se.db, se.db ++ [(freshRoot se.db, newView)]) := by
    simp only [triePut, hnv, hov]
  have hfind_new : (se.db ++ [(freshRoot se.db, newView)]).find?
      (fun p => p.1 = freshRoot se.db) = some (freshRoot se.db, newView) :=
    find?_snoc _ _ _ (freshRoot_not_mem se.db)
  have hnewView : newView.find? (fun e => e.1 = key) = some (key, storage) := by
    rw [hnv]
    by_cases hmem : key ∈ oldView.map Prod.fst
    · rw [if_pos hmem]; exact find?_replace _ _ _ hmem
    · rw [if_neg hmem]; exact find?_snoc _ _ _ hmem
  refine ⟨_, hres, ?_, ?_, ?_, ?_, rfl, rfl⟩
  · simpa only [htp] using freshRoot_not_mem se.db
  · simp only [htp, trieGet, hfind_new, Option.bind, hnewView, Option.map]
  · intro k hk
    have hview : newView.find? (fun e => e.1 = k)
        = oldView.find? (fun e => e.1 = k) := by
      rw [hnv]
      by_cases hmem : key ∈ oldView.map Prod.fst
      · rw [if_pos hmem]; exact find?_replace_ne _ _ _ _ hk
      · rw [if_neg hmem]; exact find?_snoc_ne _ _ _ _ hk
    simp only [htp, trieGet, hfind_new, Option.bind, hview]
    cases hf : se.db.find? (fun p => p.1 = addressData.storageRoot) with
    | none => simp [hov, hf, List.find?]
    | some entry => simp [hov, hf]
  · intro r hr k
    obtain ⟨x, hx⟩ := mem_keys_find?_isSome se.db r hr
    simp only [htp, trieGet, find?_append_some _ _ _ _ hx, hx]

/-- Witness for C9 at a one-block, one-account engine. -/
theorem setStorageAt_writes_through_shared_trie_witness :
    ∃ se', evm_setStorageAt
        ⟨⟨3⟩, [(4, [])], [(7, [([1], ⟨0, 0, 4, 0, []⟩)])],
          [⟨0, 5, 7, []⟩]⟩ [1] [2] (("0x3e8").toList) 0 = .ok se'
      ∧ se'.trie.root ∉
          (⟨⟨3⟩, [(4, [])], [(7, [([1], ⟨0, 0, 4, 0, []⟩)])],
            [⟨0, 5, 7, []⟩]⟩ : StorageEngine).db.map Prod.fst
      ∧ trieGet se'.db se'.trie.root (padPosition [2])
          = some (("0x3e8").toList)
      ∧ (∀ k, k ≠ padPosition [2] →
          trieGet se'.db se'.trie.root k
            = trieGet (⟨⟨3⟩, [(4, [])], [(7, [([1], ⟨0, 0, 4, 0, []⟩)])],
                [⟨0, 5, 7, []⟩]⟩ : StorageEngine).db
              (⟨0, 0, 4, 0, []⟩ : Account).storageRoot k)
      ∧ (∀ r ∈ (⟨⟨3⟩, [(4, [])], [(7, [([1], ⟨0, 0, 4, 0, []⟩)])],
            [⟨0, 5, 7, []⟩]⟩ : StorageEngine).db.map Prod.fst, ∀ k,
          trieGet se'.db r k
            = trieGet (⟨⟨3⟩, [(4, [])], [(7, [([1], ⟨0, 0, 4, 0, []⟩)])],
                [⟨0, 5, 7, []⟩]⟩ : StorageEngine).db r k)
      ∧ se'.accountsByRoot = [(7, [([1], ⟨0, 0, 4, 0, []⟩)])]
      ∧ se'.blocks = [⟨0, 5, 7, []⟩] :=
  setStorageAt_writes_through_shared_trie
    ⟨⟨3⟩, [(4, [])], [(7, [([1], ⟨0, 0, 4, 0, []⟩)])], [⟨0, 5, 7, []⟩]⟩
    [1] [2] (("0x3e8").toList) 0 ⟨0, 5, 7, []⟩ ⟨0, 0, 4, 0, []⟩
    (by decide) (by decide)

/-! ## C4: `evm_mine` mines exactly `n` blocks but returns the constant
`"0x0"` -/

theorem foldl_aggStep_clean (ts : List TypedTransaction) (s : AggState)
    (h : ∀ t ∈ ts, t.execException = none) : ts.foldl aggStep s = s := by
  induction ts generalizing s with
  | nil => rfl
  | cons t rest ih =>
    have ht : t.execException = none := h t (List.mem_cons_self _ _)
    have hstep : aggStep s t = s := by simp [aggStep, ht]
    rw [List.foldl_cons, hstep]
    exact ih s (fun t' ht' => h t' (List.mem_cons_of_mem _ ht'))

theorem assertExceptionalTransactions_clean (ts : List TypedTransaction)
    (h : ∀ t ∈ ts, t.execException = none) :
    assertExceptionalTransactions ts = none := by
  unfold assertExceptionalTransactions
  rw [foldl_aggStep_clean ts _ h]

theorem mineLoop_clean (v : Bool) (ts : Option Nat) :
    ∀ (n : Nat) (es : EngineState),
    (∀ t ∈ es.pool, t.execException = none) →
    ∃ es', mineLoop v ts n es = .ok es'
      ∧ es'.blocks.length = es.blocks.length + n
      ∧ (1 ≤ n → es'.pool = []) := by
  intro n
  induction n with
  | zero => exact fun es _ => ⟨es, rfl, by simp, by omega⟩
  | succ n ih =>
    intro es hclean
    have hassert : assertExceptionalTransactions es.pool = none :=
      assertExceptionalTransactions_clean es.pool hclean
    have hstep : mineLoop v ts (n + 1) es
        = mineLoop v ts n (Blockchain.mineOne es ts).1 := by
      cases v <;> simp [mineLoop, Blockchain.mineOne, hassert]
    obtain ⟨es', heq, hlen, hpool⟩ :=
      ih (Blockchain.mineOne es ts).1 (by simp [Blockchain.mineOne])
    refine ⟨es', by rw [hstep]; exact heq, ?_, fun _ => ?_⟩
    · simp only [Blockchain.mineOne, List.length_append] at hlen
      simpa [hlen] using by omega
    · cases n with
      | zero =>
        have : mineLoop v ts 0 (Blockchain.mineOne es ts).1
            = .ok (Blockchain.mineOne es ts).1 := rfl
        rw [this] at heq
        cases heq
        simp [Blockchain.mineOne]
      | succ m => exact hpool (by omega)

/-- C4 counterexample: mining two blocks through `evm_mine` commits two
blocks but returns the constant string `"0x0"` — not the committed-block
count (`"0x2"`). -/
theorem evm_mine_returns_constant_counterexample :
    ∃ es', evm_mine false ⟨[], [], [], []⟩
        (.options Option.none (some 2)) = .ok (es', ("0x0").toList)
      ∧ es'.blocks.length = 2
      ∧ ("0x0").toList ≠ ("0x2").toList :=
  ⟨⟨[⟨0, 0, 0, []⟩, ⟨1, 1, 0, []⟩], [], [], []⟩, rfl, rfl, by decide⟩

/-- C4 (amended): for every count `n ≥ 1`, `evm_mine` with a `blocks` option
of `n` (defaulting to `1` when absent) mines exactly `n` blocks, producing
empty blocks once the pool is exhausted, and returns the constant string
`"0x0"` — not the number of blocks committed. -/
theorem evm_mine_mines_n_blocks (v : Bool) (es : EngineState)
    (ts : Option Nat) (n : Nat)
    (hclean : ∀ t ∈ es.pool, t.execException = none) (hn : 1 ≤ n) :
    (∃ es', evm_mine v es (.options ts (some n)) = .ok (es', ("0x0").toList)
      ∧ es'.blocks.length = es.blocks.length + n
      ∧ es'.pool = [])
    ∧ evm_mine v es (.options ts Option.none)
        = evm_mine v es (.options ts (some 1)) := by
  obtain ⟨es', heq, hlen, hpool⟩ := mineLoop_clean v ts n es hclean
  exact ⟨⟨es', by simp [evm_mine, heq, Except.map], hlen, hpool hn⟩, rfl⟩

/-- Witness for C4 (amended) at an empty pool and `n = 3`. -/
theorem evm_mine_mines_n_blocks_witness :
    (∃ es', evm_mine true ⟨[], [], [], []⟩
        (.options Option.none (some 3)) = .ok (es', ("0x0").toList)
      ∧ es'.blocks.length
          = (⟨[], [], [], []⟩ : EngineState).blocks.length + 3
      ∧ es'.pool = [])
    ∧ evm_mine true ⟨[], [], [], []⟩ (.options Option.none Option.none)
        = evm_mine true ⟨[], [], [], []⟩ (.options Option.none (some 1)) :=
  evm_mine_mines_n_blocks true ⟨[], [], [], []⟩ Option.none 3
    (by intro t ht; simp at ht) (by decide)

/-! ## C3: the aggregated mining error loses no transaction -/

theorem aggStep_baseError_isSome (s : AggState) (t : TypedTransaction)
    (h : s.baseError.isSome = true) :
    (aggStep s t).baseError.isSome = true := by
  cases he : t.execException with
  | none => simpa [aggStep, he] using h
  | some e =>
    cases hb : s.baseError with
    | none => rw [hb] at h; simp at h
    | some b => simp [aggStep, he, hb]

theorem foldl_baseError_isSome (ts : List TypedTransaction) (s : AggState)
    (h : s.baseError.isSome = true) :
    ((ts.foldl aggStep s).baseError).isSome = true := by
  induction ts generalizing s with
  | nil => exact h
  | cons t rest ih =>
    rw [List.foldl_cons]
    exact ih _ (aggStep_baseError_isSome s t h)

theorem foldl_errors_mono (ts : List TypedTransaction) (s : AggState)
    (h : s.baseError.isSome = true) (x : List Char) (hx : x ∈ s.errors) :
    x ∈ (ts.foldl aggStep s).errors := by
  induction ts generalizing s with
  | nil => exact hx
  | cons t rest ih =>
    rw [List.foldl_cons]
    cases he : t.execException with
    | none =>
      have hstep : aggStep s t = s := by simp [aggStep, he]
      rw [hstep]
      exact ih s h hx
    | some e =>
      cases hb : s.baseError with
      | none => rw [hb] at h; simp at h
      | some b =>
        have hstep : aggStep s t =
            { baseError := some VM_EXCEPTIONS
              errors := s.errors ++
                [t.hash ++ (": ").toList ++ excToString e ++ ("\n").toList]
              data := putData s.data e.data.hash e.data } := by
          simp [aggStep, he, hb]
        rw [hstep]
        exact ih _ (by simp) (List.mem_append_left _ hx)

theorem keys_putData_mono (m : List (List Char × ExcData)) (k : List Char)
    (v : ExcData) (k' : List Char) (h : k' ∈ m.map Prod.fst) :
    k' ∈ (putData m k v).map Prod.fst := by
  unfold putData
  by_cases hk : k ∈ m.map Prod.fst
  · rw [if_pos hk]
    obtain ⟨p, hp, hpk⟩ := List.mem_map.mp h
    by_cases hpeq : p.1 = k
    · exact List.mem_map.mpr ⟨(k, v), List.mem_map.mpr ⟨p, hp, by
        simp [hpeq]⟩, by simpa [hpeq] using hpk⟩
    · exact List.mem_map.mpr ⟨p, List.mem_map.mpr ⟨p, hp, by
        simp [hpeq]⟩, hpk⟩
  · rw [if_neg hk]
    simp only [List.map_append, List.map_cons, List.map_nil]
    exact List.mem_append_left _ h

theorem mem_keys_putData (m : List (List Char × ExcData)) (k : List Char)
    (v : ExcData) : k ∈ (putData m k v).map Prod.fst := by
  unfold putData
  by_cases hk : k ∈ m.map Prod.fst
  · rw [if_pos hk]
    obtain ⟨p, hp, hpk⟩ := List.mem_map.mp hk
    exact List.mem_map.mpr ⟨(k, v), List.mem_map.mpr ⟨p, hp, by
      simp [hpk]⟩, rfl⟩
  · rw [if_neg hk]
    simp only [List.map_append, List.map_cons, List.map_nil]
    exact List.mem_append_right _ (List.mem_singleton.mpr rfl)

theorem foldl_data_keys_mono (ts : List TypedTransaction) (s : AggState)
    (k : List Char) (h : k ∈ s.data.map Prod.fst) :
    k ∈ ((ts.foldl aggStep s).data).map Prod.fst := by
  induction ts generalizing s with
  | nil => exact h
  | cons t rest ih =>
    rw [List.foldl_cons]
    cases he : t.execException with
    | none =>
      have hstep : aggStep s t = s := by simp [aggStep, he]
      rw [hstep]; exact ih s h
    | some e =>
      cases hb : s.baseError with
      | none =>
        have hstep : (aggStep s t).data = putData s.data e.data.hash e.data := by
          simp [aggStep, he, hb]
        refine ih _ ?_
        rw [hstep]
        exact keys_putData_mono _ _ _ _ h
      | some b =>
        have hstep : (aggStep s t).data = putData s.data e.data.hash e.data := by
          simp [aggStep, he, hb]
        refine ih _ ?_
        rw [hstep]
        exact keys_putData_mono _ _ _ _ h

theorem foldl_data_keys_complete (ts : List TypedTransaction) :
    ∀ (s : AggState) (t : TypedTransaction) (e : ExecException),
    t ∈ ts → t.execException = some e →
    e.data.hash ∈ ((ts.foldl aggStep s).data).map Prod.fst := by
  induction ts with
  | nil => intro s t e ht; simp at ht
  | cons a rest ih =>
    intro s t e ht he
    rw [List.foldl_cons]
    rcases List.mem_cons.mp ht with h | h
    · subst h
      have hdata : (aggStep s t).data = putData s.data e.data.hash e.data := by
        cases hb : s.baseError <;> simp [aggStep, he, hb]
      refine foldl_data_keys_mono rest _ _ ?_
      rw [hdata]
      exact mem_keys_putData _ _ _
    · exact ih _ t e h he

theorem foldl_errors_complete (ts : List TypedTransaction) :
    ∀ (s : AggState) (t : TypedTransaction) (e : ExecException),
    t ∈ ts → t.execException = some e →
    ∃ entry ∈ (ts.foldl aggStep s).errors, e.message <:+: entry := by
  induction ts with
  | nil => intro s t e ht; simp at ht
  | cons a rest ih =>
    intro s t e ht he
    rw [List.foldl_cons]
    rcases List.mem_cons.mp ht with h | h
    · subst h
      cases hb : s.baseError with
      | none =>
        refine ⟨e.message, ?_, ⟨[], [], by simp⟩⟩
        have hstep : aggStep s t =
            { baseError := some VM_EXCEPTION
              errors := [e.message]
              data := putData s.data e.data.hash e.data } := by
          simp [aggStep, he, hb]
        rw [hstep]
        exact foldl_errors_mono rest _ (by simp) _ (by simp)
      | some b =>
        refine ⟨t.hash ++ (": ").toList ++ excToString e ++ ("\n").toList,
          ?_, ?_⟩
        · have hstep : aggStep s t =
              { baseError := some VM_EXCEPTIONS
                errors := s.errors ++
                  [t.hash ++ (": ").toList ++ excToString e ++ ("\n").toList]
                data := putData s.data e.data.hash e.data } := by
            simp [aggStep, he, hb]
          rw [hstep]
          exact foldl_errors_mono rest _ (by simp) _ (by simp)
        · exact ⟨t.hash ++ (": ").toList ++ e.name ++ (": ").toList,
            ("\n").toList, by simp [excToString]⟩
    · exact ih _ t e h he

theorem foldl_baseError_some_of_exceptional (ts : List TypedTransaction) :
    ∀ (s : AggState) (t : TypedTransaction) (e : ExecException),
    t ∈ ts → t.execException = some e →
    ((ts.foldl aggStep s).baseError).isSome = true := by
  induction ts with
  | nil => intro s t e ht; simp at ht
  | cons a rest ih =>
    intro s t e ht he
    rw [List.foldl_cons]
    rcases List.mem_cons.mp ht with h | h
    · subst h
      refine foldl_baseError_isSome rest _ ?_
      cases hb : s.baseError <;> simp [aggStep, he, hb]
    · exact ih _ t e h he

theorem mem_joinSep_infix (sep : List Char) (L : List (List Char))
    (x : List Char) (hx : x ∈ L) : x <:+: joinSep sep L := by
  induction L with
  | nil => simp at hx
  | cons a L' ih =>
    cases L' with
    | nil =>
      rcases List.mem_cons.mp hx with h | h
      · subst h; exact ⟨[], [], by simp [joinSep]⟩
      · simp at h
    | cons b rest =>
      rcases List.mem_cons.mp hx with h | h
      · subst h
        exact ⟨[], sep ++ joinSep sep (b :: rest), by simp [joinSep]⟩
      · obtain ⟨s, t, hst⟩ := ih h
        exact ⟨a ++ sep ++ s, t, by
          simp only [joinSep]
          rw [← hst]
          simp [List.append_assoc]⟩

/-- C3: when a mined batch contains at least one transaction with an
execution exception, `assertExceptionalTransactions` throws a single
aggregated error that, for every such transaction, carries the
transaction's hash among the keys of the error's `data` payload and the
exception's message inside the error's message string — losing none of
them. (The hypothesis that `execException.data.hash` is the transaction's
hash reflects how the execution layer constructs the exception.) -/
theorem assertExceptionalTransactions_loses_nothing
    (transactions : List TypedTransaction)
    (hhash : ∀ t ∈ transactions, ∀ e : ExecException,
      t.execException = some e → e.data.hash = t.hash)
    (t₀ : TypedTransaction) (e₀ : ExecException) (ht₀ : t₀ ∈ transactions)
    (he₀ : t₀.execException = some e₀) :
    ∃ err, assertExceptionalTransactions transactions = some err
      ∧ ∀ t ∈ transactions, ∀ e : ExecException, t.execException = some e →
          t.hash ∈ err.data.map Prod.fst
          ∧ e.message <:+: err.message := by
  have hsome := foldl_baseError_some_of_exceptional transactions
    ⟨none, [], []⟩ t₀ e₀ ht₀ he₀
  obtain ⟨base, hbase⟩ := Option.isSome_iff_exists.mp hsome
  refine ⟨⟨base ++ joinSep (("\n").toList)
      (transactions.foldl aggStep ⟨none, [], []⟩).errors,
      (transactions.foldl aggStep ⟨none, [], []⟩).data⟩, ?_, ?_⟩
  · simp only [assertExceptionalTransactions]
    rw [hbase]
  · intro t ht e he
    constructor
    · have := foldl_data_keys_complete transactions ⟨none, [], []⟩ t e ht he
      rwa [hhash t ht e he] at this
    · obtain ⟨entry, hentry, hinf⟩ :=
        foldl_errors_complete transactions ⟨none, [], []⟩ t e ht he
      have hjoin := mem_joinSep_infix (("\n").toList) _ entry hentry
      obtain ⟨s₁, t₁, hst⟩ := hinf.trans hjoin
      exact ⟨base ++ s₁, t₁, by rw [← hst]; simp [List.append_assoc]⟩

/-- A concrete three-transaction batch with two execution exceptions, used
to witness the aggregation theorem. -/
def exceptionalBatch : List TypedTransaction :=
  [⟨("aa").toList, some ⟨("RuntimeError").toList, ("revert x").toList,
    ⟨("aa").toList, 0⟩⟩⟩,
   ⟨("bb").toList, none⟩,
   ⟨("cc").toList, some ⟨("RuntimeError").toList, ("out of gas").toList,
    ⟨("cc").toList, 1⟩⟩⟩]

/-- Witness for C3: two exceptional transactions in a batch of three. -/
theorem assertExceptionalTransactions_loses_nothing_witness :
    ∃ err, assertExceptionalTransactions exceptionalBatch = some err
      ∧ ∀ t ∈ exceptionalBatch,
          ∀ e : ExecException, t.execException = some e →
          t.hash ∈ err.data.map Prod.fst
          ∧ e.message <:+: err.message :=
  assertExceptionalTransactions_loses_nothing exceptionalBatch (by decide)
    ⟨("aa").toList, some ⟨("RuntimeError").toList, ("revert x").toList,
      ⟨("aa").toList, 0⟩⟩⟩
    ⟨("RuntimeError").toList, ("revert x").toList, ⟨("aa").toList, 0⟩⟩
    (by decide) (by decide)

end Ganache
